import Mathlib

/-!
A shallow embedding of the core of the hazure compiler:

* the combinator-style recursive-descent parser of
  `src/crates/parser/src/lib.rs` (built on the `chumsky` combinator
  library, version 0.8: ordered choice with full backtracking in `or`,
  greedy `repeated`, `parse_recovery` that returns the output only when
  the whole parse succeeds, since the grammar wires no `recover_with`
  strategies), and
* the tree-walking TypeScript code generator of
  `src/crates/codegen/src/ts.rs`.

Rust `panic!`-style aborts (the `unwrap` on a failed float parse, the
`unreachable!` on an unknown intrinsic, slice indexing out of bounds) are
modelled by the `Except Panic` monad: `.error` is a panic, `.ok` is a
normal return.
-/

/-- Half-open byte span, Rust's `std::ops::Range<usize>`. `stop` is the
exclusive end (`end` is a Lean keyword). -/
structure Span where
  start : Nat
  stop : Nat
deriving DecidableEq, Repr

/-- `Spanned<T> = (T, Range<usize>)` from the parser crate. -/
abbrev Spanned (α : Type) := α × Span

/-- Modelled from the spec: the token type of the external lexer crate
(`lexer::Token`), which is not under `src/`; the variants are those the
parser matches on plus the token vocabulary listed in the spec's external
interface section. A float token carries its source text (the payload the
parser later runs Rust's `f64::from_str` on). -/
inductive Token where
  | Int (i : Int)
  | Float (payload : String)
  | Boolean (b : Bool)
  | String (s : String)
  | Identifier (s : String)
  | Plus | Minus | Multiply | Divide
  | Less | Greater | Equal | NotEqual
  | OpenParen | CloseParen | Comma | Colon | SemiColon | Assign
  | KwLet | KwFun | KwDo | KwEnd
deriving DecidableEq, Repr

/-- Modelled from the spec: the `Display` rendering of operator tokens used
by the parser's `op.to_string()` calls; the operator spellings are the ones
the spec's token vocabulary lists (`+ - * / < > = !=`). Non-operator tokens
are never passed through `to_string` by the parser. -/
def tokenDisplay : Token → String
  | .Int i => toString i
  | .Float payload => payload
  | .Boolean b => toString b
  | .String s => s
  | .Identifier s => s
  | .Plus => "+"
  | .Minus => "-"
  | .Multiply => "*"
  | .Divide => "/"
  | .Less => "<"
  | .Greater => ">"
  | .Equal => "="
  | .NotEqual => "!="
  | .OpenParen => "("
  | .CloseParen => ")"
  | .Comma => ","
  | .Colon => ":"
  | .SemiColon => ";"
  | .Assign => "="
  | .KwLet => "let"
  | .KwFun => "fun"
  | .KwDo => "do"
  | .KwEnd => "end"

/-- The parser's AST (`Expr` in `src/crates/parser/src/lib.rs`).
`Float` stores the token payload rather than an `f64` value: the value
itself is never inspected by this crate, and the fallible `String → f64`
conversion is modelled by `validF64` at the single place the source
performs it. `If.then_` renames the source's `then` field (a Lean
keyword). -/
inductive Expr where
  | Int (i : Int)
  | Float (payload : String)
  | Boolean (b : Bool)
  | String (s : String)
  | Identifier (s : String)
  | Unary (op : String) (rhs : Expr × Span)
  | Binary (lhs : Expr × Span) (op : String) (rhs : Expr × Span)
  | Call (name : Expr × Span) (args : (List (Expr × Span)) × Span)
  | Let (name : String) (type_hint : String) (value : Expr × Span)
  | Fun (name : String) (type_hint : String)
      (args : (List ((String × Span) × (String × Span))) × Span)
      (body : Expr × Span)
  | If (cond : Expr × Span) (then_ : Expr × Span) (else_ : Expr × Span)
  | Do (body : List (Expr × Span))
deriving Repr

/-- A structured parse error, modelling chumsky's `Simple<Token>`:
the span of the offending position, the expected tokens (`none` stands for
end-of-input), and the token actually found (`none` at end-of-input).
The `label` of `Simple` is omitted: no claim inspects it. -/
structure PError where
  span : Span
  expected : List (Option Token)
  found : Option Token
deriving DecidableEq, Repr

/-- A Rust panic, with the site that raised it. -/
inductive Panic where
  | unwrapFailed (payload : String)
  | unknownIntrinsic (name : String)
  | indexOutOfBounds
deriving DecidableEq, Repr

/-- Is a digit `0`-`9`. -/
def isDigitCh (c : Char) : Bool := '0' ≤ c && c ≤ '9'

/-- One or more decimal digits. -/
def digits1 : List Char → Bool
  | [] => false
  | c :: cs => isDigitCh c && (cs.all isDigitCh)

/-- The optional exponent part of Rust's float grammar:
empty, or `(e|E) (+|-)? digit+`. -/
def validExp : List Char → Bool
  | [] => true
  | c :: cs =>
    (c = 'e' || c = 'E') &&
      (match cs with
       | '+' :: ds => digits1 ds
       | '-' :: ds => digits1 ds
       | ds => digits1 ds)

/-- A mantissa-with-exponent per Rust's grammar: `digit+ ('.' digit*)? exp?`
or `'.' digit+ exp?`. -/
def validNumber (l : List Char) : Bool :=
  let ds := l.takeWhile isDigitCh
  let rest := l.dropWhile isDigitCh
  match ds, rest with
  | [], '.' :: rest2 =>
    let ds2 := rest2.takeWhile isDigitCh
    let rest3 := rest2.dropWhile isDigitCh
    !ds2.isEmpty && validExp rest3
  | [], _ => false
  | _ :: _, '.' :: rest2 =>
    let rest3 := rest2.dropWhile isDigitCh
    validExp rest3
  | _ :: _, rest2 => validExp rest2

/-- Modelled after Rust's `<f64 as FromStr>::from_str` acceptance grammar
(`core::num::dec2flt`): an optional sign, then case-insensitively `inf`,
`infinity` or `nan`, or a decimal number with optional fraction and
exponent. Only its success/failure is relevant: the parser calls
`f.parse().unwrap()` and panics exactly when this is false. -/
def validF64 (s : String) : Bool :=
  let l := match s.data with
    | '+' :: r => r
    | '-' :: r => r
    | r => r
  let low := l.map Char.toLower
  if low = "inf".data || low = "infinity".data || low = "nan".data then true
  else validNumber l

/-- The token stream: spanned tokens, as handed to `parse`. -/
abbrev Toks := List (Token × Span)

/-- Outcome of running one parser: success with the unconsumed suffix, or a
structured parse failure (chumsky backtracks in `or`, so a failure carries
no consumed input). -/
inductive PR (α : Type) where
  | ok (a : α) (rest : Toks)
  | err (e : PError)
deriving Repr

/-- A parser over the token stream; `.error` of the outer `Except` is a
Rust panic unwinding through the combinators. -/
abbrev P (α : Type) := Toks → Except Panic (PR α)

/-- Error selection used by chumsky's `or` when both branches fail:
prefer the error that got further into the stream, merge the expected
sets at equal positions. -/
def errMerge (e₁ e₂ : PError) : PError :=
  if e₁.span.start < e₂.span.start then e₂
  else if e₂.span.start < e₁.span.start then e₁
  else { e₁ with expected := e₁.expected ++ e₂.expected }

/-- chumsky `a.or(b)`: try `a`; on failure backtrack and try `b` from the
same position; if both fail, merge the errors. A panic aborts. -/
def pOr {α : Type} (p q : P α) : P α := fun ts =>
  match p ts with
  | .error pa => .error pa
  | .ok (.ok a rest) => .ok (.ok a rest)
  | .ok (.err e₁) =>
    match q ts with
    | .error pa => .error pa
    | .ok (.ok a rest) => .ok (.ok a rest)
    | .ok (.err e₂) => .ok (.err (errMerge e₁ e₂))

/-- chumsky `.map(f)`. -/
def pMap {α β : Type} (f : α → β) (p : P α) : P β := fun ts =>
  match p ts with
  | .error pa => .error pa
  | .ok (.ok a rest) => .ok (.ok (f a) rest)
  | .ok (.err e) => .ok (.err e)

/-- chumsky `a.then(b)`: sequence, pairing the outputs. -/
def pThen {α β : Type} (p : P α) (q : P β) : P (α × β) := fun ts =>
  match p ts with
  | .error pa => .error pa
  | .ok (.err e) => .ok (.err e)
  | .ok (.ok a rest) =>
    match q rest with
    | .error pa => .error pa
    | .ok (.err e) => .ok (.err e)
    | .ok (.ok b rest₂) => .ok (.ok (a, b) rest₂)

/-- chumsky `a.then_ignore(b)`. -/
def pThenIgnore {α β : Type} (p : P α) (q : P β) : P α :=
  pMap Prod.fst (pThen p q)

/-- chumsky `a.ignore_then(b)`. -/
def pIgnoreThen {α β : Type} (p : P α) (q : P β) : P β :=
  pMap Prod.snd (pThen p q)

/-- chumsky `just(t)`: match one exact token (by `PartialEq`), yielding it.
`eoi` is the end-of-input span the `Stream` was built with. -/
def justP (t : Token) (eoi : Span) : P Token := fun ts =>
  match ts with
  | [] => .ok (.err ⟨eoi, [some t], none⟩)
  | (t₂, sp) :: rest =>
    if t₂ = t then .ok (.ok t₂ rest)
    else .ok (.err ⟨sp, [some t], some t₂⟩)

/-- chumsky `end()`: succeed exactly at end of input; its error expects
end-of-input (`none`). -/
def endP : P Unit := fun ts =>
  match ts with
  | [] => .ok (.ok () [])
  | (t, sp) :: _ => .ok (.err ⟨sp, [none], some t⟩)

/-- The `identifier` parser of `expr_parser`: a `filter_map` accepting an
`Identifier` token and yielding `(name, span)`; any other token produces
`Simple::expected_input_found(span, Vec::new(), Some(token))`. -/
def identifierP (eoi : Span) : P (String × Span) := fun ts =>
  match ts with
  | [] => .ok (.err ⟨eoi, [], none⟩)
  | (t, sp) :: rest =>
    match t with
    | .Identifier s => .ok (.ok (s, sp) rest)
    | _ => .ok (.err ⟨sp, [], some t⟩)

/-- The `literal` parser of `expr_parser`: a `filter_map` accepting the
four literal token kinds. On a `Float` token the source runs
`f.parse().unwrap()`, which panics when the payload is not a valid `f64`
representation. -/
def literalP (eoi : Span) : P (Spanned Expr) := fun ts =>
  match ts with
  | [] => .ok (.err ⟨eoi, [], none⟩)
  | (t, sp) :: rest =>
    match t with
    | .Int i => .ok (.ok (Expr.Int i, sp) rest)
    | .Float payload =>
      if validF64 payload then .ok (.ok (Expr.Float payload, sp) rest)
      else .error (.unwrapFailed payload)
    | .Boolean b => .ok (.ok (Expr.Boolean b, sp) rest)
    | .String s => .ok (.ok (Expr.String s, sp) rest)
    | _ => .ok (.err ⟨sp, [], some t⟩)

/-- Work loop of `pRepeated`, fuelled by the stream length: each iteration
that continues has consumed at least the tokens needed to succeed, and the
grammar only repeats consuming parsers, so the fuel is never the reason it
stops on any reachable input. -/
def pRepeatedGo {α : Type} (p : P α) : Nat → Toks → Except Panic (PR (List α))
  | 0, ts => .ok (.ok [] ts)
  | fuel + 1, ts =>
    match p ts with
    | .error pa => .error pa
    | .ok (.err _) => .ok (.ok [] ts)
    | .ok (.ok a rest) =>
      match pRepeatedGo p fuel rest with
      | .error pa => .error pa
      | .ok (.ok as rest₂) => .ok (.ok (a :: as) rest₂)
      | .ok (.err e) => .ok (.err e)

/-- chumsky `.repeated()`: zero or more, greedy, stopping (and discarding
the error) at the first failed iteration. -/
def pRepeated {α : Type} (p : P α) : P (List α) := fun ts =>
  pRepeatedGo p (ts.length + 1) ts

/-- Tail loop of `separated_by(sep).allow_trailing()`: repeat
`sep` + element; a trailing `sep` with no following element is consumed
and ends the list. -/
def pSepTailGo {α : Type} (p : P α) (sep : P Token) :
    Nat → Toks → Except Panic (PR (List α))
  | 0, ts => .ok (.ok [] ts)
  | fuel + 1, ts =>
    match sep ts with
    | .error pa => .error pa
    | .ok (.err _) => .ok (.ok [] ts)
    | .ok (.ok _ rest) =>
      match p rest with
      | .error pa => .error pa
      | .ok (.err _) => .ok (.ok [] rest)
      | .ok (.ok a rest₂) =>
        match pSepTailGo p sep fuel rest₂ with
        | .error pa => .error pa
        | .ok (.ok as rest₃) => .ok (.ok (a :: as) rest₃)
        | .ok (.err e) => .ok (.err e)

/-- chumsky `p.separated_by(sep).allow_trailing()`: zero or more `p`
separated by `sep`, optionally ending with one trailing `sep`. -/
def pSepByAllowTrailing {α : Type} (p : P α) (sep : P Token) : P (List α) :=
  fun ts =>
  match p ts with
  | .error pa => .error pa
  | .ok (.err _) => .ok (.ok [] ts)
  | .ok (.ok a rest) =>
    match pSepTailGo p sep (rest.length + 1) rest with
    | .error pa => .error pa
    | .ok (.ok as rest₂) => .ok (.ok (a :: as) rest₂)
    | .ok (.err e) => .ok (.err e)

/-- The source span chumsky's `map_with_span` hands to its closure: from
the start of the first consumed token to the end of the last consumed
token (the grammar's only use, `do_block`, always consumes at least the
`do` and `end` keywords). -/
def consumedSpan (eoi : Span) (ts rest : Toks) : Span :=
  let consumed := ts.take (ts.length - rest.length)
  match consumed.head?, consumed.getLast? with
  | some (_, sp₁), some (_, sp₂) => ⟨sp₁.start, sp₂.stop⟩
  | _, _ =>
    match ts with
    | (_, sp) :: _ => ⟨sp.start, sp.start⟩
    | [] => ⟨eoi.start, eoi.start⟩

/-- chumsky `.map_with_span(f)`. -/
def pMapWithSpan {α β : Type} (eoi : Span) (f : α → Span → β) (p : P α) :
    P β := fun ts =>
  match p ts with
  | .error pa => .error pa
  | .ok (.err e) => .ok (.err e)
  | .ok (.ok a rest) => .ok (.ok (f a (consumedSpan eoi ts rest)) rest)

/-- `atom`: `literal.or(identifier.map(...))` — the parenthesized
alternative in the source is commented out. -/
def atomP (eoi : Span) : P (Spanned Expr) :=
  pOr (literalP eoi)
    (pMap (fun sv : String × Span => (Expr.Identifier sv.1, sv.2))
      (identifierP eoi))

/-- `args`: `expr.separated_by(just(Comma)).allow_trailing()`. -/
def argsP (expr : P (Spanned Expr)) (eoi : Span) : P (List (Spanned Expr)) :=
  pSepByAllowTrailing expr (justP .Comma eoi)

/-- `call`: an atom followed by repeated parenthesized argument lists,
left-folded into nested `Call` nodes; both the node span and the argument
list span are the callee's span (`name.1`), as in the source. -/
def callP (expr : P (Spanned Expr)) (eoi : Span) : P (Spanned Expr) :=
  pMap
    (fun p : Spanned Expr × List (List (Spanned Expr)) =>
      p.2.foldl
        (fun name args => ((Expr.Call name (args, name.2)), name.2)) p.1)
    (pThen (atomP eoi)
      (pRepeated
        (pIgnoreThen (justP .OpenParen eoi)
          (pThenIgnore (argsP expr eoi) (justP .CloseParen eoi)))))

/-- `unary`: repeated prefix `+`/`-` right-folded onto a call; the folded
node keeps the operand's span (`rhs.1`), as in the source. -/
def unaryP (expr : P (Spanned Expr)) (eoi : Span) : P (Spanned Expr) :=
  pMap
    (fun p : List Token × Spanned Expr =>
      p.1.foldr
        (fun op rhs => ((Expr.Unary (tokenDisplay op) rhs), rhs.2)) p.2)
    (pThen (pRepeated (pOr (justP .Plus eoi) (justP .Minus eoi)))
      (callP expr eoi))

/-- The shared shape of `factor`, `term` and `compare`:
`sub.then(op.then(sub).repeated()).foldl(...)`, each fold yielding a
`Binary` node that carries the right operand's span (`rhs.1`), as in the
source. -/
def binChainP (sub : P (Spanned Expr)) (opP : P Token) : P (Spanned Expr) :=
  pMap
    (fun p : Spanned Expr × List (Token × Spanned Expr) =>
      p.2.foldl
        (fun lhs or_ =>
          ((Expr.Binary lhs (tokenDisplay or_.1) or_.2), or_.2.2)) p.1)
    (pThen sub (pRepeated (pThen opP sub)))

/-- `factor`: unary expressions chained with `*`/`/`. -/
def factorP (expr : P (Spanned Expr)) (eoi : Span) : P (Spanned Expr) :=
  binChainP (unaryP expr eoi) (pOr (justP .Multiply eoi) (justP .Divide eoi))

/-- `term`: factors chained with `+`/`-`. -/
def termP (expr : P (Spanned Expr)) (eoi : Span) : P (Spanned Expr) :=
  binChainP (factorP expr eoi) (pOr (justP .Plus eoi) (justP .Minus eoi))

/-- `compare`: terms chained with `<`, `>`, `=`, `!=`. -/
def compareP (expr : P (Spanned Expr)) (eoi : Span) : P (Spanned Expr) :=
  binChainP (termP expr eoi)
    (pOr (pOr (pOr (justP .Less eoi) (justP .Greater eoi))
      (justP .Equal eoi)) (justP .NotEqual eoi))

/-- `let_`: `let IDENT : IDENT = expr`, with span
`name.1.start..value.1.end` — the `let` keyword is consumed but excluded
from the node's span, exactly as the source computes it. -/
def letP (expr : P (Spanned Expr)) (eoi : Span) : P (Spanned Expr) :=
  pMap
    (fun p : ((String × Span) × (String × Span)) × Spanned Expr =>
      ((Expr.Let p.1.1.1 p.1.2.1 p.2), ⟨p.1.1.2.start, p.2.2.stop⟩))
    (pThen
      (pThenIgnore
        (pThen
          (pThenIgnore (pIgnoreThen (justP .KwLet eoi) (identifierP eoi))
            (justP .Colon eoi))
          (identifierP eoi))
        (justP .Assign eoi))
      expr)

/-- One parenthesized typed parameter of `fun`:
`(IDENT : IDENT)` yielding the name/type-hint pair of spanned strings. -/
def funArgP (eoi : Span) : P ((String × Span) × (String × Span)) :=
  pIgnoreThen (justP .OpenParen eoi)
    (pThenIgnore
      (pThen (pThenIgnore (identifierP eoi) (justP .Colon eoi))
        (identifierP eoi))
      (justP .CloseParen eoi))

/-- `fun`: `fun IDENT (IDENT : IDENT)* : IDENT = expr`; the argument
list's span and the node span's start come from the name token
(`name.1`), the span end from the body — the `fun` keyword is excluded
from the span, exactly as the source computes it. -/
def funP (expr : P (Spanned Expr)) (eoi : Span) : P (Spanned Expr) :=
  pMap
    (fun p : (((String × Span) × List ((String × Span) × (String × Span)))
        × (String × Span)) × Spanned Expr =>
      ((Expr.Fun p.1.1.1.1 p.1.2.1 (p.1.1.2, p.1.1.1.2) p.2),
        ⟨p.1.1.1.2.start, p.2.2.stop⟩))
    (pThen
      (pThenIgnore
        (pThen
          (pThenIgnore
            (pThen (pIgnoreThen (justP .KwFun eoi) (identifierP eoi))
              (pRepeated (funArgP eoi)))
            (justP .Colon eoi))
          (identifierP eoi))
        (justP .Assign eoi))
      expr)

/-- `do_block`: `do (expr ;)* end`, with `map_with_span` covering the
whole block from the `do` keyword through the `end` keyword. -/
def doBlockP (expr : P (Spanned Expr)) (eoi : Span) : P (Spanned Expr) :=
  pMapWithSpan eoi (fun body sp => ((Expr.Do body), sp))
    (pThenIgnore
      (pIgnoreThen (justP .KwDo eoi)
        (pRepeated (pThenIgnore expr (justP .SemiColon eoi))))
      (justP .KwEnd eoi))

/-- The recursive `expr` knot: `let_.or(fun).or(do_block).or(compare)`.
The `recursive` combinator is modelled with a fuel parameter; every
recursive entry first consumes at least one token, so the fuel
`parse` supplies (stream length + 1) never runs out on any input. -/
def exprP (eoi : Span) : Nat → P (Spanned Expr)
  | 0 => fun _ => .ok (.err ⟨eoi, [], none⟩)
  | n + 1 =>
    pOr
      (pOr (pOr (letP (exprP eoi n) eoi) (funP (exprP eoi n) eoi))
        (doBlockP (exprP eoi n) eoi))
      (compareP (exprP eoi n) eoi)

/-- The whole-program parser:
`expr.then_ignore(just(SemiColon)).repeated().then_ignore(end())`. -/
def programP (eoi : Span) (fuel : Nat) : P (List (Spanned Expr)) :=
  pThenIgnore
    (pRepeated (pThenIgnore (exprP eoi fuel) (justP .SemiColon eoi)))
    endP

/-- `parse(tokens, len)`: run the program parser with `parse_recovery`
over a `Stream` whose end-of-input span is `len..len+1`. The grammar
contains no `recover_with` strategy, so chumsky's recovery machinery
never synthesizes a partial output: a clean parse yields
`(Some ast, [])` and any failure yields `(None, errors)`. -/
def parse (tokens : Toks) (len : Nat) :
    Except Panic (Option (List (Spanned Expr)) × List PError) :=
  match programP ⟨len, len + 1⟩ (tokens.length + 1) tokens with
  | .error pa => .error pa
  | .ok (.ok ast _) => .ok (some ast, [])
  | .ok (.err e) => .ok (none, [e])

/-! ## The code generator (`src/crates/codegen/src/ts.rs`)

The IR consumed by codegen is declared in the external `hir` crate, which
is not under `src/`; `Value`, `IRKind` and `IR` below are modelled from
the spec's data-model section, with the exact field names and shapes the
codegen source destructures. All brace characters in output templates are
written with `\x7b`/`\x7d` escapes. -/

/-- Modelled from the spec: `hir::Value`, a resolved literal —
int / boolean / string / identifier. -/
inductive Value where
  | Int (i : Int)
  | Boolean (b : Bool)
  | String (s : String)
  | Ident (s : String)
deriving DecidableEq, Repr

/-- Modelled from the spec: `hir::IRKind`, the variant set produced by the
external lowering stage, with the fields `gen_ir` destructures. -/
inductive IRKind where
  | Define (public : Bool) (name : String) (type_hint : String)
      (value : IRKind) (mutable : Bool)
  | Call (name : String) (args : List IRKind)
  | Intrinsic (name : String) (args : List IRKind)
  | Fun (public : Bool) (name : String) (return_type_hint : String)
      (args : List (String × String)) (body : IRKind)
  | Return (value : IRKind)
  | Do (body : List IRKind)
  | If (cond : IRKind) (body : IRKind) (else_body : IRKind)
  | Case (cond : IRKind) (cases : List (IRKind × IRKind)) (default : IRKind)
  | Unary (op : String) (right : IRKind)
  | Binary (left : IRKind) (op : String) (right : IRKind)
  | Value (value : Value)
  | Vector (values : List IRKind)
deriving Repr

/-- Modelled from the spec: `hir::IR`, a spanned top-level IR node; `gen`
only reads its `kind`. -/
structure IR where
  kind : IRKind
  span : Span
deriving Repr

/-- The `semicolon!` macro of `gen_ir`: `";"` in statement context,
`""` otherwise. -/
def semicolonStr (should_gen_semicolon : Bool) : String :=
  if should_gen_semicolon then ";" else ""

/-- Rust `str::trim_start_matches` with a char pattern: repeatedly strip
the char from the front. -/
def trimStartCharL (c : Char) : List Char → List Char
  | [] => []
  | x :: xs => if x = c then trimStartCharL c xs else x :: xs

/-- Rust `str::trim_end_matches` with a char pattern: repeatedly strip the
char from the back. -/
def trimEndCharL (c : Char) (l : List Char) : List Char :=
  (trimStartCharL c l.reverse).reverse

/-- Work loop of `rustTrimEndMatches`, fuelled by the string length (each
step removes a nonempty suffix, so the fuel never runs out). -/
def trimEndMatchesGo (pat : List Char) : Nat → List Char → List Char
  | 0, l => l
  | n + 1, l =>
    if pat ≠ [] ∧ pat.isSuffixOf l then
      trimEndMatchesGo pat n (l.take (l.length - pat.length))
    else l

/-- Rust `str::trim_end_matches` with a string pattern: repeatedly strip
occurrences of the pattern from the back. -/
def rustTrimEndMatches (pat : String) (s : String) : String :=
  ⟨trimEndMatchesGo pat.data s.data.length s.data⟩

/-- Rust slice indexing `args[i]` is transcribed as a match on the list
shape: `args[0]` (resp. `args[1]`) panics with an index-out-of-bounds
abort exactly when the slice is too short, before anything is rendered
from the missing position. -/
def indexPanic : Except Panic String := .error .indexOutOfBounds

mutual

/-- `Codegen::gen_ir`: render one IR node, `should_gen_semicolon`
selecting statement vs. expression context. Each `format!` template is
transcribed as string concatenation; `.error` is a panic
(`unreachable!` on an unknown intrinsic name, indexing past the end of
an intrinsic's argument slice). -/
def gen_ir : IRKind → Bool → Except Panic String
  | .Define public name type_hint value mutable, sgs => do
    let v ← gen_ir value false
    pure ((if public then "export" else "") ++ " " ++
      (if mutable then "let" else "const") ++ " v_" ++ name ++ ": " ++
      type_hint ++ " = " ++ v ++ semicolonStr sgs ++ "\n")
  | .Call name args, sgs => do
    let rs ← gen_irArgs args
    pure ("f_" ++ name ++ "(" ++
      rustTrimEndMatches ";\n" (String.intercalate ", " rs) ++ ")" ++
      semicolonStr sgs)
  | .Intrinsic name args, sgs =>
    match name with
    | "write" =>
      match args with
      | a₀ :: _ => do
        let s₀ ← gen_ir a₀ false
        pure ("write(" ++ s₀ ++ ")" ++ semicolonStr sgs ++ "\n")
      | [] => indexPanic
    | "write_file" =>
      match args with
      | a₀ :: rest => do
        let s₀ ← gen_ir a₀ false
        match rest with
        | a₁ :: _ => do
          let s₁ ← gen_ir a₁ false
          pure ("writeFile(" ++ s₀ ++ ", " ++ s₁ ++ ")" ++
            semicolonStr sgs ++ "\n")
        | [] => indexPanic
      | [] => indexPanic
    | "read" =>
      match args with
      | a₀ :: _ => do
        let s₀ ← gen_ir a₀ false
        pure ("read(" ++ s₀ ++ ")" ++ semicolonStr sgs ++ "\n")
      | [] => indexPanic
    | "read_file" =>
      match args with
      | a₀ :: _ => do
        let s₀ ← gen_ir a₀ false
        pure ("readFile(" ++ s₀ ++ ")" ++ semicolonStr sgs ++ "\n")
      | [] => indexPanic
    | "emit" =>
      match args with
      | a₀ :: _ => do
        let s₀ ← gen_ir a₀ false
        pure ⟨trimEndCharL '"' (trimStartCharL '"' s₀.data)⟩
      | [] => indexPanic
    | "get" =>
      match args with
      | a₀ :: rest => do
        let s₀ ← gen_ir a₀ false
        match rest with
        | a₁ :: _ => do
          let s₁ ← gen_ir a₁ false
          pure (s₀ ++ "[" ++ s₁ ++ "]")
        | [] => indexPanic
      | [] => indexPanic
    | _ => .error (.unknownIntrinsic name)
  | .Fun public name return_type_hint args body, _sgs => do
    let argsStr := String.intercalate ", "
      (args.map (fun a => "v_" ++ a.1 ++ ": " ++ a.2))
    let b ← gen_ir body false
    pure ((if public then "export" else "") ++ " const f_" ++ name ++
      " = (" ++ argsStr ++ "): " ++ return_type_hint ++ " => " ++ b ++ ";\n")
  | .Return value, _sgs => do
    let v ← gen_ir value false
    pure ("return " ++ v ++ ";\n")
  | .Do body, _sgs => do
    let rs ← gen_irStmts body
    pure ("\x7b\n" ++ String.join rs ++ "\x7d\n")
  | .If cond body else_body, _sgs => do
    let c ← gen_ir cond true
    let b ← gen_ir body true
    let e ← gen_ir else_body true
    pure ("if (" ++ c ++ ") \x7b\n" ++ b ++ "\x7d else \x7b\n" ++ e ++
      "\x7d\n")
  | .Case cond cases default, _sgs => do
    let c ← gen_ir cond true
    let cs ← gen_irCases cases
    let d ← gen_ir default true
    pure ("switch (" ++ c ++ ") \x7b\n" ++ String.intercalate "\n" cs ++
      ("default: " ++ d ++ "\nbreak;\n") ++ "\n\x7d\n")
  | .Unary op right, _sgs => do
    let r ← gen_ir right false
    pure (op ++ r)
  | .Binary left op right, _sgs => do
    let l ← gen_ir left false
    let r ← gen_ir right false
    pure (l ++ " " ++ op ++ " " ++ r)
  | .Value v, _sgs =>
    match v with
    | .Int i => pure (toString i)
    | .Boolean b => pure (toString b)
    | .String s => pure ("\"" ++ s ++ "\"")
    | .Ident s => pure ("v_" ++ s)
  | .Vector values, _sgs => do
    let rs ← gen_irArgs values
    pure ("[" ++ String.intercalate ", " rs ++ "]")

/-- The `args.iter().map(|arg| self.gen_ir(arg, false))` traversals of
`Call` and `Vector`: render each element in expression context, stopping
at the first panic. -/
def gen_irArgs : List IRKind → Except Panic (List String)
  | [] => pure []
  | a :: as => do
    let s ← gen_ir a false
    let rest ← gen_irArgs as
    pure (s :: rest)

/-- The `for expr in body` loop of `Do`: render each statement in
statement context. -/
def gen_irStmts : List IRKind → Except Panic (List String)
  | [] => pure []
  | a :: as => do
    let s ← gen_ir a true
    let rest ← gen_irStmts as
    pure (s :: rest)

/-- The `cases.iter().map(...)` traversal of `Case`: each arm renders as
`case <pattern>: <body>\nbreak;\n` with pattern and body in statement
context. -/
def gen_irCases : List (IRKind × IRKind) → Except Panic (List String)
  | [] => pure []
  | pb :: rest => do
    let p ← gen_ir pb.1 true
    let b ← gen_ir pb.2 true
    let rs ← gen_irCases rest
    pure (("case " ++ p ++ ": " ++ b ++ "\nbreak;\n") :: rs)

end

/-- The generated-file header comment `gen` emits first; the version
string is the build-time `env!("CARGO_PKG_VERSION")` constant (the
package manifest is not under `src/`), so it is kept as a parameter. -/
def headerLine (version : String) : String :=
  "// Auto-generated by hazure compiler version " ++ version ++ "\n"

/-- The fixed runtime import statement `gen` emits second. -/
def importLine : String :=
  "import \x7b read, write, readFile, writeFile \x7d from \"https://raw.githubusercontent.com/azur1s/hazure/master/runtime/io.ts\"\n"

/-- The `for ir in irs { self.emit(&self.gen_ir(&ir.kind, true)); }` loop
of `gen`, appending to the emission buffer. -/
def genLoop : List IR → String → Except Panic String
  | [], buf => pure buf
  | ir :: rest, buf => do
    let s ← gen_ir ir.kind true
    genLoop rest (buf ++ s)

/-- `Codegen::gen`: header comment, fixed import, every top-level IR node
in order (statement context), then the fixed entry-point invocation
`f_main();`. The version argument stands for `env!("CARGO_PKG_VERSION")`. -/
def gen (version : String) (irs : List IR) : Except Panic String := do
  let buf ← genLoop irs (headerLine version ++ importLine)
  pure (buf ++ "f_main();")

/-- The per-item renderings `gen`'s loop emits: every top-level IR node in
input order, in statement context. -/
def genRenders : List IR → Except Panic (List String)
  | [] => pure []
  | ir :: rest => do
    let s ← gen_ir ir.kind true
    let rs ← genRenders rest
    pure (s :: rs)

/-- The six intrinsic names `gen_ir` recognizes. -/
def recognizedIntrinsics : List String :=
  ["write", "write_file", "read", "read_file", "emit", "get"]

mutual

/-- Every `Intrinsic` node of the tree carries a recognized name — the
contract the spec says lowering guarantees before codegen runs. -/
def intrinsicsKnown : IRKind → Bool
  | .Define _ _ _ value _ => intrinsicsKnown value
  | .Call _ args => intrinsicsKnownList args
  | .Intrinsic name args =>
    (name == "write" || name == "write_file" || name == "read" ||
      name == "read_file" || name == "emit" || name == "get") &&
      intrinsicsKnownList args
  | .Fun _ _ _ _ body => intrinsicsKnown body
  | .Return value => intrinsicsKnown value
  | .Do body => intrinsicsKnownList body
  | .If cond body else_body =>
    intrinsicsKnown cond && intrinsicsKnown body && intrinsicsKnown else_body
  | .Case cond cases default =>
    intrinsicsKnown cond && intrinsicsKnownPairs cases &&
      intrinsicsKnown default
  | .Unary _ right => intrinsicsKnown right
  | .Binary left _ right => intrinsicsKnown left && intrinsicsKnown right
  | .Value _ => true
  | .Vector values => intrinsicsKnownList values

def intrinsicsKnownList : List IRKind → Bool
  | [] => true
  | a :: as => intrinsicsKnown a && intrinsicsKnownList as

def intrinsicsKnownPairs : List (IRKind × IRKind) → Bool
  | [] => true
  | pb :: rest =>
    intrinsicsKnown pb.1 && intrinsicsKnown pb.2 && intrinsicsKnownPairs rest

end

/-- The outcome is not the `unreachable!` fault of the unknown-intrinsic
branch (for any reported name). -/
def NoUnkE {α : Type} (x : Except Panic α) : Prop :=
  ∀ n : String, x ≠ .error (.unknownIntrinsic n)

/-! ## Totality of the parser on streams with well-formed float payloads

The only panic site in the parser is the `f.parse().unwrap()` of the
`literal` parser. `Good p` states that `p` returns without panicking on
every stream whose float tokens all carry valid `f64` payloads, and that
on success the unconsumed rest is a suffix of the input (so the
hypothesis is inherited by every continuation). -/

/-- The float-payload condition a single token must satisfy so that the
`literal` parser cannot panic on it. -/
def floatOkTok : Token → Bool
  | .Float payload => validF64 payload
  | _ => true

/-- Every token of the stream satisfies `floatOkTok`. -/
def ValidFloats (ts : Toks) : Prop := ∀ x ∈ ts, floatOkTok x.1 = true

/-- A parser that cannot panic on float-valid streams and only ever
leaves a suffix of its input unconsumed. -/
def Good {α : Type} (p : P α) : Prop :=
  ∀ ts, ValidFloats ts →
    ∃ pr, p ts = .ok pr ∧ ∀ a rest, pr = PR.ok a rest → rest <:+ ts

theorem validFloats_mono {ts rest : Toks} (h : ValidFloats ts)
    (hs : rest <:+ ts) : ValidFloats rest :=
  fun x hx => h x (hs.subset hx)

theorem good_pOr {α : Type} {p q : P α} (hp : Good p) (hq : Good q) :
    Good (pOr p q) := by
  intro ts hv
  obtain ⟨pr, hpr, hs⟩ := hp ts hv
  cases pr with
  | ok a rest =>
    refine ⟨PR.ok a rest, by simp [pOr, hpr], ?_⟩
    intro a' r' h'
    cases h'
    exact hs a rest rfl
  | err e₁ =>
    obtain ⟨pr₂, hpr₂, hs₂⟩ := hq ts hv
    cases pr₂ with
    | ok a rest =>
      refine ⟨PR.ok a rest, by simp [pOr, hpr, hpr₂], ?_⟩
      intro a' r' h'
      cases h'
      exact hs₂ a rest rfl
    | err e₂ =>
      refine ⟨PR.err (errMerge e₁ e₂), by simp [pOr, hpr, hpr₂], ?_⟩
      intro a' r' h'
      cases h'

theorem good_pMap {α β : Type} {f : α → β} {p : P α} (hp : Good p) :
    Good (pMap f p) := by
  intro ts hv
  obtain ⟨pr, hpr, hs⟩ := hp ts hv
  cases pr with
  | ok a rest =>
    refine ⟨PR.ok (f a) rest, by simp [pMap, hpr], ?_⟩
    intro a' r' h'
    cases h'
    exact hs a rest rfl
  | err e =>
    refine ⟨PR.err e, by simp [pMap, hpr], ?_⟩
    intro a' r' h'
    cases h'

theorem good_pThen {α β : Type} {p : P α} {q : P β} (hp : Good p)
    (hq : Good q) : Good (pThen p q) := by
  intro ts hv
  obtain ⟨pr, hpr, hs⟩ := hp ts hv
  cases pr with
  | ok a rest =>
    have hrest : rest <:+ ts := hs a rest rfl
    obtain ⟨pr₂, hpr₂, hs₂⟩ := hq rest (validFloats_mono hv hrest)
    cases pr₂ with
    | ok b rest₂ =>
      refine ⟨PR.ok (a, b) rest₂, by simp [pThen, hpr, hpr₂], ?_⟩
      intro a' r' h'
      cases h'
      exact (hs₂ b rest₂ rfl).trans hrest
    | err e =>
      refine ⟨PR.err e, by simp [pThen, hpr, hpr₂], ?_⟩
      intro a' r' h'
      cases h'
  | err e =>
    refine ⟨PR.err e, by simp [pThen, hpr], ?_⟩
    intro a' r' h'
    cases h'

theorem good_pThenIgnore {α β : Type} {p : P α} {q : P β} (hp : Good p)
    (hq : Good q) : Good (pThenIgnore p q) :=
  good_pMap (good_pThen hp hq)

theorem good_pIgnoreThen {α β : Type} {p : P α} {q : P β} (hp : Good p)
    (hq : Good q) : Good (pIgnoreThen p q) :=
  good_pMap (good_pThen hp hq)

theorem good_justP {t : Token} {eoi : Span} : Good (justP t eoi) := by
  intro ts _
  cases ts with
  | nil => exact ⟨PR.err ⟨eoi, [some t], none⟩, rfl, fun a r h => by cases h⟩
  | cons x rest =>
    by_cases h : x.1 = t
    · refine ⟨PR.ok x.1 rest, by simp [justP, h], ?_⟩
      intro a r h'
      cases h'
      exact List.suffix_cons x rest
    · exact ⟨PR.err ⟨x.2, [some t], some x.1⟩, by simp [justP, h],
        fun a r h' => by cases h'⟩

theorem good_endP : Good endP := by
  intro ts _
  cases ts with
  | nil => exact ⟨PR.ok () [], rfl, fun a r h => by cases h; exact List.suffix_refl []⟩
  | cons x rest =>
    exact ⟨PR.err ⟨x.2, [none], some x.1⟩, rfl, fun a r h => by cases h⟩

theorem good_identifierP {eoi : Span} : Good (identifierP eoi) := by
  intro ts _
  cases ts with
  | nil => exact ⟨PR.err ⟨eoi, [], none⟩, rfl, fun a r h => by cases h⟩
  | cons x rest =>
    obtain ⟨t, sp⟩ := x
    cases t with
    | Identifier s =>
      refine ⟨PR.ok (s, sp) rest, rfl, ?_⟩
      intro a r h'
      cases h'
      exact List.suffix_cons _ rest
    | Int i => exact ⟨PR.err ⟨sp, [], some (.Int i)⟩, rfl, fun a r h => by cases h⟩
    | Float payload => exact ⟨_, rfl, fun a r h => by cases h⟩
    | Boolean b => exact ⟨_, rfl, fun a r h => by cases h⟩
    | String s => exact ⟨_, rfl, fun a r h => by cases h⟩
    | Plus => exact ⟨_, rfl, fun a r h => by cases h⟩
    | Minus => exact ⟨_, rfl, fun a r h => by cases h⟩
    | Multiply => exact ⟨_, rfl, fun a r h => by cases h⟩
    | Divide => exact ⟨_, rfl, fun a r h => by cases h⟩
    | Less => exact ⟨_, rfl, fun a r h => by cases h⟩
    | Greater => exact ⟨_, rfl, fun a r h => by cases h⟩
    | Equal => exact ⟨_, rfl, fun a r h => by cases h⟩
    | NotEqual => exact ⟨_, rfl, fun a r h => by cases h⟩
    | OpenParen => exact ⟨_, rfl, fun a r h => by cases h⟩
    | CloseParen => exact ⟨_, rfl, fun a r h => by cases h⟩
    | Comma => exact ⟨_, rfl, fun a r h => by cases h⟩
    | Colon => exact ⟨_, rfl, fun a r h => by cases h⟩
    | SemiColon => exact ⟨_, rfl, fun a r h => by cases h⟩
    | Assign => exact ⟨_, rfl, fun a r h => by cases h⟩
    | KwLet => exact ⟨_, rfl, fun a r h => by cases h⟩
    | KwFun => exact ⟨_, rfl, fun a r h => by cases h⟩
    | KwDo => exact ⟨_, rfl, fun a r h => by cases h⟩
    | KwEnd => exact ⟨_, rfl, fun a r h => by cases h⟩

theorem good_literalP {eoi : Span} : Good (literalP eoi) := by
  intro ts hv
  cases ts with
  | nil => exact ⟨PR.err ⟨eoi, [], none⟩, rfl, fun a r h => by cases h⟩
  | cons x rest =>
    obtain ⟨t, sp⟩ := x
    cases t with
    | Int i =>
      refine ⟨PR.ok (Expr.Int i, sp) rest, rfl, ?_⟩
      intro a r h'
      cases h'
      exact List.suffix_cons _ rest
    | Float payload =>
      have hfl : validF64 payload = true :=
        hv (.Float payload, sp) (List.mem_cons_self _ rest)
      refine ⟨PR.ok (Expr.Float payload, sp) rest, by simp [literalP, hfl], ?_⟩
      intro a r h'
      cases h'
      exact List.suffix_cons _ rest
    | Boolean b =>
      refine ⟨PR.ok (Expr.Boolean b, sp) rest, rfl, ?_⟩
      intro a r h'
      cases h'
      exact List.suffix_cons _ rest
    | String s =>
      refine ⟨PR.ok (Expr.String s, sp) rest, rfl, ?_⟩
      intro a r h'
      cases h'
      exact List.suffix_cons _ rest
    | Identifier s => exact ⟨_, rfl, fun a r h => by cases h⟩
    | Plus => exact ⟨_, rfl, fun a r h => by cases h⟩
    | Minus => exact ⟨_, rfl, fun a r h => by cases h⟩
    | Multiply => exact ⟨_, rfl, fun a r h => by cases h⟩
    | Divide => exact ⟨_, rfl, fun a r h => by cases h⟩
    | Less => exact ⟨_, rfl, fun a r h => by cases h⟩
    | Greater => exact ⟨_, rfl, fun a r h => by cases h⟩
    | Equal => exact ⟨_, rfl, fun a r h => by cases h⟩
    | NotEqual => exact ⟨_, rfl, fun a r h => by cases h⟩
    | OpenParen => exact ⟨_, rfl, fun a r h => by cases h⟩
    | CloseParen => exact ⟨_, rfl, fun a r h => by cases h⟩
    | Comma => exact ⟨_, rfl, fun a r h => by cases h⟩
    | Colon => exact ⟨_, rfl, fun a r h => by cases h⟩
    | SemiColon => exact ⟨_, rfl, fun a r h => by cases h⟩
    | Assign => exact ⟨_, rfl, fun a r h => by cases h⟩
    | KwLet => exact ⟨_, rfl, fun a r h => by cases h⟩
    | KwFun => exact ⟨_, rfl, fun a r h => by cases h⟩
    | KwDo => exact ⟨_, rfl, fun a r h => by cases h⟩
    | KwEnd => exact ⟨_, rfl, fun a r h => by cases h⟩

theorem good_pRepeatedGo {α : Type} {p : P α} (hp : Good p) :
    ∀ (fuel : Nat) (ts : Toks), ValidFloats ts →
      ∃ pr, pRepeatedGo p fuel ts = .ok pr ∧
        ∀ a rest, pr = PR.ok a rest → rest <:+ ts := by
  intro fuel
  induction fuel with
  | zero =>
    intro ts _
    refine ⟨PR.ok [] ts, rfl, ?_⟩
    intro a r h'
    cases h'
    exact List.suffix_refl ts
  | succ n ih =>
    intro ts hv
    obtain ⟨pr, hpr, hs⟩ := hp ts hv
    cases pr with
    | err e =>
      refine ⟨PR.ok [] ts, by simp [pRepeatedGo, hpr], ?_⟩
      intro a r h'
      cases h'
      exact List.suffix_refl ts
    | ok a rest =>
      have hrest : rest <:+ ts := hs a rest rfl
      obtain ⟨pr₂, hpr₂, hs₂⟩ := ih rest (validFloats_mono hv hrest)
      cases pr₂ with
      | ok as rest₂ =>
        refine ⟨PR.ok (a :: as) rest₂, by simp [pRepeatedGo, hpr, hpr₂], ?_⟩
        intro a' r' h'
        cases h'
        exact (hs₂ as rest₂ rfl).trans hrest
      | err e =>
        refine ⟨PR.err e, by simp [pRepeatedGo, hpr, hpr₂], ?_⟩
        intro a' r' h'
        cases h'

theorem good_pRepeated {α : Type} {p : P α} (hp : Good p) :
    Good (pRepeated p) :=
  fun ts hv => good_pRepeatedGo hp (ts.length + 1) ts hv

theorem good_pSepTailGo {α : Type} {p : P α} {sep : P Token} (hp : Good p)
    (hsep : Good sep) :
    ∀ (fuel : Nat) (ts : Toks), ValidFloats ts →
      ∃ pr, pSepTailGo p sep fuel ts = .ok pr ∧
        ∀ a rest, pr = PR.ok a rest → rest <:+ ts := by
  intro fuel
  induction fuel with
  | zero =>
    intro ts _
    refine ⟨PR.ok [] ts, rfl, ?_⟩
    intro a r h'
    cases h'
    exact List.suffix_refl ts
  | succ n ih =>
    intro ts hv
    obtain ⟨pr, hpr, hs⟩ := hsep ts hv
    cases pr with
    | err e =>
      refine ⟨PR.ok [] ts, by simp [pSepTailGo, hpr], ?_⟩
      intro a r h'
      cases h'
      exact List.suffix_refl ts
    | ok tok rest =>
      have hrest : rest <:+ ts := hs tok rest rfl
      obtain ⟨pr₂, hpr₂, hs₂⟩ := hp rest (validFloats_mono hv hrest)
      cases pr₂ with
      | err e =>
        refine ⟨PR.ok [] rest, by simp [pSepTailGo, hpr, hpr₂], ?_⟩
        intro a r h'
        cases h'
        exact hrest
      | ok a rest₂ =>
        have hrest₂ : rest₂ <:+ rest := hs₂ a rest₂ rfl
        obtain ⟨pr₃, hpr₃, hs₃⟩ := ih rest₂
          (validFloats_mono hv (hrest₂.trans hrest))
        cases pr₃ with
        | ok as rest₃ =>
          refine ⟨PR.ok (a :: as) rest₃,
            by simp [pSepTailGo, hpr, hpr₂, hpr₃], ?_⟩
          intro a' r' h'
          cases h'
          exact ((hs₃ as rest₃ rfl).trans hrest₂).trans hrest
        | err e =>
          refine ⟨PR.err e, by simp [pSepTailGo, hpr, hpr₂, hpr₃], ?_⟩
          intro a' r' h'
          cases h'

theorem good_pSepByAllowTrailing {α : Type} {p : P α} {sep : P Token}
    (hp : Good p) (hsep : Good sep) : Good (pSepByAllowTrailing p sep) := by
  intro ts hv
  obtain ⟨pr, hpr, hs⟩ := hp ts hv
  cases pr with
  | err e =>
    refine ⟨PR.ok [] ts, by simp [pSepByAllowTrailing, hpr], ?_⟩
    intro a r h'
    cases h'
    exact List.suffix_refl ts
  | ok a rest =>
    have hrest : rest <:+ ts := hs a rest rfl
    obtain ⟨pr₂, hpr₂, hs₂⟩ := good_pSepTailGo hp hsep (rest.length + 1) rest
      (validFloats_mono hv hrest)
    cases pr₂ with
    | ok as rest₂ =>
      refine ⟨PR.ok (a :: as) rest₂, by simp [pSepByAllowTrailing, hpr, hpr₂], ?_⟩
      intro a' r' h'
      cases h'
      exact (hs₂ as rest₂ rfl).trans hrest
    | err e =>
      refine ⟨PR.err e, by simp [pSepByAllowTrailing, hpr, hpr₂], ?_⟩
      intro a' r' h'
      cases h'

theorem good_pMapWithSpan {α β : Type} {eoi : Span} {f : α → Span → β}
    {p : P α} (hp : Good p) : Good (pMapWithSpan eoi f p) := by
  intro ts hv
  obtain ⟨pr, hpr, hs⟩ := hp ts hv
  cases pr with
  | ok a rest =>
    refine ⟨PR.ok (f a (consumedSpan eoi ts rest)) rest,
      by simp [pMapWithSpan, hpr], ?_⟩
    intro a' r' h'
    cases h'
    exact hs a rest rfl
  | err e =>
    refine ⟨PR.err e, by simp [pMapWithSpan, hpr], ?_⟩
    intro a' r' h'
    cases h'

theorem good_atomP {eoi : Span} : Good (atomP eoi) :=
  good_pOr good_literalP (good_pMap good_identifierP)

theorem good_argsP {expr : P (Spanned Expr)} {eoi : Span} (he : Good expr) :
    Good (argsP expr eoi) :=
  good_pSepByAllowTrailing he good_justP

theorem good_callP {expr : P (Spanned Expr)} {eoi : Span} (he : Good expr) :
    Good (callP expr eoi) :=
  good_pMap (good_pThen good_atomP
    (good_pRepeated (good_pIgnoreThen good_justP
      (good_pThenIgnore (good_argsP he) good_justP))))

theorem good_unaryP {expr : P (Spanned Expr)} {eoi : Span} (he : Good expr) :
    Good (unaryP expr eoi) :=
  good_pMap (good_pThen (good_pRepeated (good_pOr good_justP good_justP))
    (good_callP he))

theorem good_binChainP {sub : P (Spanned Expr)} {opP : P Token}
    (hs : Good sub) (ho : Good opP) : Good (binChainP sub opP) :=
  good_pMap (good_pThen hs (good_pRepeated (good_pThen ho hs)))

theorem good_factorP {expr : P (Spanned Expr)} {eoi : Span} (he : Good expr) :
    Good (factorP expr eoi) :=
  good_binChainP (good_unaryP he) (good_pOr good_justP good_justP)

theorem good_termP {expr : P (Spanned Expr)} {eoi : Span} (he : Good expr) :
    Good (termP expr eoi) :=
  good_binChainP (good_factorP he) (good_pOr good_justP good_justP)

theorem good_compareP {expr : P (Spanned Expr)} {eoi : Span} (he : Good expr) :
    Good (compareP expr eoi) :=
  good_binChainP (good_termP he)
    (good_pOr (good_pOr (good_pOr good_justP good_justP) good_justP)
      good_justP)

theorem good_letP {expr : P (Spanned Expr)} {eoi : Span} (he : Good expr) :
    Good (letP expr eoi) :=
  good_pMap (good_pThen
    (good_pThenIgnore
      (good_pThen
        (good_pThenIgnore (good_pIgnoreThen good_justP good_identifierP)
          good_justP)
        good_identifierP)
      good_justP)
    he)

theorem good_funArgP {eoi : Span} : Good (funArgP eoi) :=
  good_pIgnoreThen good_justP
    (good_pThenIgnore
      (good_pThen (good_pThenIgnore good_identifierP good_justP)
        good_identifierP)
      good_justP)

theorem good_funP {expr : P (Spanned Expr)} {eoi : Span} (he : Good expr) :
    Good (funP expr eoi) :=
  good_pMap (good_pThen
    (good_pThenIgnore
      (good_pThen
        (good_pThenIgnore
          (good_pThen (good_pIgnoreThen good_justP good_identifierP)
            (good_pRepeated good_funArgP))
          good_justP)
        good_identifierP)
      good_justP)
    he)

theorem good_doBlockP {expr : P (Spanned Expr)} {eoi : Span}
    (he : Good expr) : Good (doBlockP expr eoi) :=
  good_pMapWithSpan (good_pThenIgnore
    (good_pIgnoreThen good_justP
      (good_pRepeated (good_pThenIgnore he good_justP)))
    good_justP)

theorem good_exprP {eoi : Span} : ∀ fuel : Nat, Good (exprP eoi fuel) := by
  intro fuel
  induction fuel with
  | zero => exact fun ts _ => ⟨PR.err ⟨eoi, [], none⟩, rfl, fun a r h => by cases h⟩
  | succ n ih =>
    exact good_pOr
      (good_pOr (good_pOr (good_letP ih) (good_funP ih)) (good_doBlockP ih))
      (good_compareP ih)

theorem good_programP {eoi : Span} {fuel : Nat} : Good (programP eoi fuel) :=
  good_pThenIgnore
    (good_pRepeated (good_pThenIgnore (good_exprP fuel) good_justP))
    good_endP

/-! ## Claim theorems: parser -/

/-- C10: `parse` is total — it never panics — on every token stream whose
`Float` tokens all carry payloads accepted by Rust's `f64` parser; the
`literal` parser, handed a `Float` token whose payload is not a valid
`f64` representation, panics via the failed `unwrap` (here: the `.error`
of the panic monad) instead of returning a parse error, and that panic
unwinds out of a whole `parse` run that reaches such a token. -/
theorem parse_total_validFloats_and_panics_on_bad_float :
    (∀ (ts : Toks) (len : Nat), ValidFloats ts →
      ∃ r, parse ts len = .ok r) ∧
    (∀ (eoi sp : Span) (payload : String) (rest : Toks),
      validF64 payload = false →
      literalP eoi ((.Float payload, sp) :: rest) =
        .error (.unwrapFailed payload)) ∧
    parse [(.Float "abc", ⟨0, 3⟩), (.SemiColon, ⟨3, 4⟩)] 4 =
      .error (.unwrapFailed "abc") := by
  refine ⟨?_, ?_, rfl⟩
  · intro ts len hv
    obtain ⟨pr, hpr, _⟩ := good_programP ts hv
    cases pr with
    | ok ast rest =>
      refine ⟨(some ast, []), ?_⟩
      unfold parse
      rw [hpr]
    | err e =>
      refine ⟨(none, [e]), ?_⟩
      unfold parse
      rw [hpr]
  · intro eoi sp payload rest h
    simp [literalP, h]

/-- Witness for C10: the totality half applied at a concrete float-valid
stream. -/
theorem parse_total_validFloats_witness :
    ∃ r, parse [(.Float "1.5", ⟨0, 3⟩), (.SemiColon, ⟨3, 4⟩)] 4 = .ok r :=
  parse_total_validFloats_and_panics_on_bad_float.1
    [(.Float "1.5", ⟨0, 3⟩), (.SemiColon, ⟨3, 4⟩)] 4
    (by unfold ValidFloats; decide)

/-- C5: a comparison chain `a op b op c` (for each of the four comparison
operators `<`, `>`, `=`, `!=`) parses as the left-associative tree
`Binary(Binary(a, op, b), op, c)`: each fold step produces a fresh binary
node (whose span is the right operand's span), with no three-way
chained-comparison reading. -/
theorem compare_chain_parses_left_associative :
    (∀ (a b c : String) (s₁ s₂ s₃ s₄ s₅ s₆ : Span) (len : Nat),
      parse [(.Identifier a, s₁), (.Less, s₂), (.Identifier b, s₃),
             (.Less, s₄), (.Identifier c, s₅), (.SemiColon, s₆)] len =
      .ok (some [((Expr.Binary
          ((Expr.Binary ((Expr.Identifier a), s₁) "<"
            ((Expr.Identifier b), s₃)), s₃)
          "<" ((Expr.Identifier c), s₅)), s₅)], [])) ∧
    (∀ (a b c : String) (s₁ s₂ s₃ s₄ s₅ s₆ : Span) (len : Nat),
      parse [(.Identifier a, s₁), (.Greater, s₂), (.Identifier b, s₃),
             (.Greater, s₄), (.Identifier c, s₅), (.SemiColon, s₆)] len =
      .ok (some [((Expr.Binary
          ((Expr.Binary ((Expr.Identifier a), s₁) ">"
            ((Expr.Identifier b), s₃)), s₃)
          ">" ((Expr.Identifier c), s₅)), s₅)], [])) ∧
    (∀ (a b c : String) (s₁ s₂ s₃ s₄ s₅ s₆ : Span) (len : Nat),
      parse [(.Identifier a, s₁), (.Equal, s₂), (.Identifier b, s₃),
             (.Equal, s₄), (.Identifier c, s₅), (.SemiColon, s₆)] len =
      .ok (some [((Expr.Binary
          ((Expr.Binary ((Expr.Identifier a), s₁) "="
            ((Expr.Identifier b), s₃)), s₃)
          "=" ((Expr.Identifier c), s₅)), s₅)], [])) ∧
    (∀ (a b c : String) (s₁ s₂ s₃ s₄ s₅ s₆ : Span) (len : Nat),
      parse [(.Identifier a, s₁), (.NotEqual, s₂), (.Identifier b, s₃),
             (.NotEqual, s₄), (.Identifier c, s₅), (.SemiColon, s₆)] len =
      .ok (some [((Expr.Binary
          ((Expr.Binary ((Expr.Identifier a), s₁) "!="
            ((Expr.Identifier b), s₃)), s₃)
          "!=" ((Expr.Identifier c), s₅)), s₅)], [])) :=
  ⟨fun _ _ _ _ _ _ _ _ _ _ => rfl, fun _ _ _ _ _ _ _ _ _ _ => rfl,
   fun _ _ _ _ _ _ _ _ _ _ => rfl, fun _ _ _ _ _ _ _ _ _ _ => rfl⟩

/-- C6: `f(a,b)(c)` — an atom followed by parenthesized comma-separated
argument lists — left-folds the lists onto the preceding expression,
yielding `Call(Call(f, [a, b]), [c])`; a trailing comma inside a list is
allowed and changes nothing. (As in the source, the folded node and its
argument list both carry the callee's span.) -/
theorem call_argument_lists_fold_left :
    (∀ (f a b c : String) (s₁ s₂ s₃ s₄ s₅ s₆ s₇ s₈ s₉ s₁₀ : Span)
        (len : Nat),
      parse [(.Identifier f, s₁), (.OpenParen, s₂), (.Identifier a, s₃),
             (.Comma, s₄), (.Identifier b, s₅), (.CloseParen, s₆),
             (.OpenParen, s₇), (.Identifier c, s₈), (.CloseParen, s₉),
             (.SemiColon, s₁₀)] len =
      .ok (some [((Expr.Call
          ((Expr.Call ((Expr.Identifier f), s₁)
            ([((Expr.Identifier a), s₃), ((Expr.Identifier b), s₅)], s₁)), s₁)
          ([((Expr.Identifier c), s₈)], s₁)), s₁)], [])) ∧
    (∀ (f a b c : String) (s₁ s₂ s₃ s₄ s₅ s₅' s₆ s₇ s₈ s₉ s₁₀ : Span)
        (len : Nat),
      parse [(.Identifier f, s₁), (.OpenParen, s₂), (.Identifier a, s₃),
             (.Comma, s₄), (.Identifier b, s₅), (.Comma, s₅'),
             (.CloseParen, s₆),
             (.OpenParen, s₇), (.Identifier c, s₈), (.CloseParen, s₉),
             (.SemiColon, s₁₀)] len =
      .ok (some [((Expr.Call
          ((Expr.Call ((Expr.Identifier f), s₁)
            ([((Expr.Identifier a), s₃), ((Expr.Identifier b), s₅)], s₁)), s₁)
          ([((Expr.Identifier c), s₈)], s₁)), s₁)], [])) :=
  ⟨fun _ _ _ _ _ _ _ _ _ _ _ _ _ _ _ => rfl,
   fun _ _ _ _ _ _ _ _ _ _ _ _ _ _ _ _ => rfl⟩

/-- C4 counterexample: for the top-level item `let x : T = 1 ;` (where
the `let` keyword occupies bytes 0..3 and the name token starts at
byte 4), the attached span is `4..12` — it starts at the *name* token,
not at the item's first token (`let` at 0), so the claimed span
`0..12` is wrong. -/
theorem item_span_starts_at_first_token_cex :
    parse [(.KwLet, ⟨0, 3⟩), (.Identifier "x", ⟨4, 5⟩), (.Colon, ⟨5, 6⟩),
           (.Identifier "T", ⟨7, 8⟩), (.Assign, ⟨9, 10⟩), (.Int 1, ⟨11, 12⟩),
           (.SemiColon, ⟨12, 13⟩)] 13 =
      .ok (some [((Expr.Let "x" "T" ((Expr.Int 1), ⟨11, 12⟩)), ⟨4, 12⟩)],
        []) ∧
    (Span.mk 4 12) ≠ (Span.mk 0 12) :=
  ⟨rfl, by decide⟩

/-- C4 amended: the first-token-to-last-token span rule holds for
do-blocks (via `map_with_span`) and for single-atom expression items; a
`let` (resp. `fun`) item instead gets a span running from its *name*
token's start — excluding the leading keyword — to its value's (resp.
body's) span end, as the source computes `name.1.start..value.1.end`
(resp. `..body.1.end`). -/
theorem item_span_amended :
    (∀ (x : String) (s₁ s₂ s₃ s₄ s₅ : Span) (len : Nat),
      parse [(.KwDo, s₁), (.Identifier x, s₂), (.SemiColon, s₃),
             (.KwEnd, s₄), (.SemiColon, s₅)] len =
      .ok (some [((Expr.Do [((Expr.Identifier x), s₂)]),
        ⟨s₁.start, s₄.stop⟩)], [])) ∧
    (∀ (n : Int) (s₁ s₂ : Span) (len : Nat),
      parse [(.Int n, s₁), (.SemiColon, s₂)] len =
      .ok (some [((Expr.Int n), s₁)], [])) ∧
    (∀ (x T : String) (n : Int) (s₁ s₂ s₃ s₄ s₅ s₆ s₇ : Span) (len : Nat),
      parse [(.KwLet, s₁), (.Identifier x, s₂), (.Colon, s₃),
             (.Identifier T, s₄), (.Assign, s₅), (.Int n, s₆),
             (.SemiColon, s₇)] len =
      .ok (some [((Expr.Let x T ((Expr.Int n), s₆)),
        ⟨s₂.start, s₆.stop⟩)], [])) ∧
    (∀ (f x T R : String) (n : Int)
        (s₁ s₂ s₃ s₄ s₅ s₆ s₇ s₈ s₉ s₁₀ s₁₁ s₁₂ : Span) (len : Nat),
      parse [(.KwFun, s₁), (.Identifier f, s₂), (.OpenParen, s₃),
             (.Identifier x, s₄), (.Colon, s₅), (.Identifier T, s₆),
             (.CloseParen, s₇), (.Colon, s₈), (.Identifier R, s₉),
             (.Assign, s₁₀), (.Int n, s₁₁), (.SemiColon, s₁₂)] len =
      .ok (some [((Expr.Fun f R ([((x, s₄), (T, s₆))], s₂)
        ((Expr.Int n), s₁₁)), ⟨s₂.start, s₁₁.stop⟩)], [])) :=
  ⟨fun _ _ _ _ _ _ _ => rfl, fun _ _ _ _ => rfl,
   fun _ _ _ _ _ _ _ _ _ _ _ => rfl,
   fun _ _ _ _ _ _ _ _ _ _ _ _ _ _ _ _ _ _ => rfl⟩

/-- C1 counterexample: a stream holding a well-formed item
(`let x : T = 1 ;`), then a malformed item (a lone `:`), then another
well-formed item (`let y : T = 2 ;`). The grammar wires no `recover_with`
strategy, so chumsky cannot resume after the failure: `parse` returns
`None` together with the error — not a `Some` program containing the two
well-formed items as claimed. -/
theorem parse_recovery_cex :
    ∃ e, parse [(.KwLet, ⟨0, 3⟩), (.Identifier "x", ⟨4, 5⟩), (.Colon, ⟨5, 6⟩),
           (.Identifier "T", ⟨7, 8⟩), (.Assign, ⟨9, 10⟩), (.Int 1, ⟨11, 12⟩),
           (.SemiColon, ⟨12, 13⟩),
           (.Colon, ⟨14, 15⟩), (.SemiColon, ⟨15, 16⟩),
           (.KwLet, ⟨17, 20⟩), (.Identifier "y", ⟨21, 22⟩),
           (.Colon, ⟨22, 23⟩), (.Identifier "T", ⟨24, 25⟩),
           (.Assign, ⟨26, 27⟩), (.Int 2, ⟨28, 29⟩),
           (.SemiColon, ⟨29, 30⟩)] 30 = .ok (none, [e]) :=
  ⟨⟨⟨14, 15⟩, [none], some .Colon⟩, rfl⟩

/-- C1 amended: on any parse failure the parser reports a structured
error but produces no program: the returned program is `Some` exactly
when the error list is empty, because the grammar contains no recovery
strategy that could assemble a partial item list. -/
theorem parse_some_iff_no_errors :
    ∀ (ts : Toks) (len : Nat) r, parse ts len = .ok r →
      (r.1.isSome = true ↔ r.2 = []) := by
  intro ts len r h
  unfold parse at h
  split at h
  · exact absurd h (by simp)
  · cases h
    simp
  · cases h
    simp

/-- Witness for the amended C1: a clean two-item parse yields a `Some`
program and an empty error list. -/
theorem parse_some_iff_no_errors_witness :
    ((some [((Expr.Int 1), Span.mk 0 1), ((Expr.Int 2), Span.mk 2 3)] :
        Option (List (Spanned Expr))).isSome = true ↔
      ([] : List PError) = []) :=
  parse_some_iff_no_errors
    [(.Int 1, ⟨0, 1⟩), (.SemiColon, ⟨1, 2⟩), (.Int 2, ⟨2, 3⟩),
     (.SemiColon, ⟨3, 4⟩)] 4
    (some [((Expr.Int 1), ⟨0, 1⟩), ((Expr.Int 2), ⟨2, 3⟩)], []) rfl

/-! ## Claim theorems: code generator -/

theorem trimStartCharL_cons_self (c : Char) (l : List Char) :
    trimStartCharL c (c :: l) = trimStartCharL c l := by
  simp [trimStartCharL]

theorem trimStartCharL_of_head_ne {c : Char} {l : List Char}
    (h : l.head? ≠ some c) : trimStartCharL c l = l := by
  cases l with
  | nil => rfl
  | cons x xs =>
    simp only [List.head?] at h
    have hx : x ≠ c := fun he => h (by rw [he])
    simp [trimStartCharL, hx]

theorem trimEndCharL_concat_self (c : Char) (l : List Char) :
    trimEndCharL c (l ++ [c]) = trimEndCharL c l := by
  simp [trimEndCharL, trimStartCharL_cons_self]

theorem trimEndCharL_of_getLast_ne {c : Char} {l : List Char}
    (h : l.getLast? ≠ some c) : trimEndCharL c l = l := by
  unfold trimEndCharL
  rw [trimStartCharL_of_head_ne, List.reverse_reverse]
  rw [List.head?_reverse]
  exact h

/-- C2 counterexample: rendering the string literal `"hi"` (whose content
itself starts and ends with a quote character) and then `emit`-splicing it
yields `hi` — `trim_start_matches`/`trim_end_matches` strip *all* leading
and trailing quote characters, not exactly one of each: stripping exactly
one of each would have produced `"hi"`. -/
theorem emit_strips_all_quotes_cex :
    gen_ir (.Intrinsic "emit" [.Value (.String "\"hi\"")]) true = .ok "hi" ∧
    ("hi" : String) ≠ "\"hi\"" :=
  ⟨rfl, by decide⟩

/-- C2 amended: the `emit` intrinsic renders its argument and strips
*all* leading and *all* trailing double-quote characters before splicing
the rest verbatim (no terminator, in either context); when the rendered
argument's content has no quote at its own boundary this coincides with
removing the one quote that string rendering added on each side. -/
theorem emit_strips_quotes_amended :
    (∀ (s : String) (b : Bool), s.data.head? ≠ some '"' →
      s.data.getLast? ≠ some '"' →
      gen_ir (.Intrinsic "emit" [.Value (.String s)]) b = .ok s) ∧
    (∀ b : Bool,
      gen_ir (.Intrinsic "emit" [.Value (.String "\"hi\"")]) b = .ok "hi") := by
  constructor
  · intro s b h₁ h₂
    have hdata : ("\"" ++ s ++ "\"").data = '"' :: (s.data ++ ['"']) := by
      simp [String.data_append]
    have : gen_ir (.Intrinsic "emit" [.Value (.String s)]) b =
        .ok ⟨trimEndCharL '"' (trimStartCharL '"' ("\"" ++ s ++ "\"").data)⟩ :=
      rfl
    rw [this, hdata, trimStartCharL_cons_self]
    cases hs : s.data with
    | nil =>
      simp only [hs, List.nil_append]
      have : (⟨s.data⟩ : String) = s := rfl
      rw [show trimStartCharL '"' ['"'] = [] from rfl]
      rw [show trimEndCharL '"' [] = [] from rfl]
      exact congrArg Except.ok (by rw [← this, hs])
    | cons x xs =>
      have hx : x ≠ '"' := by
        intro he
        exact h₁ (by rw [hs, he]; rfl)
      have h₃ : trimStartCharL '"' ((x :: xs) ++ ['"']) = (x :: xs) ++ ['"'] :=
        trimStartCharL_of_head_ne (by simp [hx])
      rw [h₃, ← hs, trimEndCharL_concat_self, trimEndCharL_of_getLast_ne h₂]
  · intro b
    rfl

/-- Witness for the amended C2: applying the quote-boundary-free half at
a concrete string. -/
theorem emit_strips_quotes_amended_witness :
    gen_ir (.Intrinsic "emit" [.Value (.String "hello")]) true = .ok "hello" :=
  emit_strips_quotes_amended.1 "hello" true (by decide) (by decide)

/-- C3 counterexample: in `Call{f, [Return(1), Value(2)]}` the first
argument's rendering keeps its trailing `;\n` (the trim is applied to
the comma-joined text, so only the end of the *last* argument is
affected), and embedding that call as a function argument of another
call yields rendered argument text that does contain the statement
separator `;` — contradicting both halves of the claim. -/
theorem call_arg_trim_cex :
    gen_ir (.Call "f" [.Return (.Value (.Int 1)), .Value (.Int 2)]) false =
      .ok "f_f(return 1;\n, 2)" ∧
    gen_ir (.Call "g"
        [.Call "f" [.Return (.Value (.Int 1)), .Value (.Int 2)]]) false =
      .ok "f_g(f_f(return 1;\n, 2))" ∧
    ';' ∈ ("f_f(return 1;\n, 2)" : String).data :=
  ⟨rfl, rfl, by decide⟩

/-- C3 amended: rendering a `Call`'s argument list joins the
expression-context renderings with `", "` and then strips trailing
`";\n"` occurrences from the end of the *joined* text (text-level
post-processing that can only affect the last argument); consequently a
`Call` rendered in argument (expression) context never *ends* in a
statement separator — it always ends in `)` — while the same `Call`
rendered as a standalone statement is exactly the expression-context
text plus a trailing `;`. -/
theorem call_arg_trim_amended :
    (∀ (name : String) (args : List IRKind),
      gen_ir (.Call name args) true =
        (gen_ir (.Call name args) false).map (fun s => s ++ ";")) ∧
    (∀ (name : String) (args : List IRKind) (s : String),
      gen_ir (.Call name args) false = .ok s →
      s.data.getLast? = some ')') ∧
    (∀ name : String,
      gen_ir (.Call name [.Return (.Value (.Int 1))]) false =
        .ok ("f_" ++ name ++ "(return 1)")) := by
  refine ⟨?_, ?_, ?_⟩
  · intro name args
    simp only [gen_ir]
    cases hargs : gen_irArgs args with
    | error e => simp [Except.map]
    | ok rs => simp [Except.map, semicolonStr, String.append_empty]
  · intro name args s h
    simp only [gen_ir] at h
    cases hargs : gen_irArgs args with
    | error e =>
      rw [hargs] at h
      simp [Except.bind] at h
    | ok rs =>
      rw [hargs] at h
      have h₂ : ("f_" ++ name ++ "(" ++
          rustTrimEndMatches ";\n" (String.intercalate ", " rs) ++ ")" ++
          semicolonStr false) = s := Except.ok.inj h
      have h₃ : semicolonStr false = "" := rfl
      rw [← h₂, h₃, String.append_empty, String.data_append,
        List.getLast?_concat]
  · intro name
    have h : gen_ir (.Call name [.Return (.Value (.Int 1))]) false =
        .ok ("f_" ++ name ++ "(" ++ "return 1" ++ ")" ++ "") := rfl
    rw [h]
    simp [String.append_assoc, String.append_empty]

/-- Witness for the amended C3: the statement/expression relation and the
trailing `)` applied at a concrete call. -/
theorem call_arg_trim_amended_witness :
    (gen_ir (.Call "f" [.Value (.Ident "x")]) true =
      (gen_ir (.Call "f" [.Value (.Ident "x")]) false).map
        (fun s => s ++ ";")) ∧
    ("f_f(v_x)" : String).data.getLast? = some ')' :=
  ⟨call_arg_trim_amended.1 "f" [.Value (.Ident "x")],
   call_arg_trim_amended.2.1 "f" [.Value (.Ident "x")] "f_f(v_x)" rfl⟩

theorem strIntercalateSingle (sep x : String) :
    String.intercalate sep [x] = x := rfl

/-- C7: name mangling — an identifier value renders exactly as `v_` +
name; a `Define` renders its bound name immediately after the literal
`" v_"`; a `Call` target renders immediately after the prefix `f_` at
the start of the output; a `Fun` renders its name immediately after the
literal `" const f_"` and each parameter name immediately after `v_`
inside the parameter list. These are the only places `gen_ir` renders a
user identifier (string contents, `emit` splices and resolved type hints
are not identifier references), so every rendered user identifier
carries its `v_`/`f_` prefix. -/
theorem mangling_prefixes :
    (∀ (x : String) (b : Bool),
      gen_ir (.Value (.Ident x)) b = .ok ("v_" ++ x)) ∧
    (∀ (p : Bool) (n th : String) (v : IRKind) (m b : Bool) (s : String),
      gen_ir (.Define p n th v m) b = .ok s →
      ∃ t u, s = t ++ " v_" ++ n ++ u) ∧
    (∀ (n : String) (args : List IRKind) (b : Bool) (s : String),
      gen_ir (.Call n args) b = .ok s →
      ∃ u, s = "f_" ++ n ++ u) ∧
    (∀ (p : Bool) (n rt : String) (fargs : List (String × String))
        (body : IRKind) (b : Bool) (s : String),
      gen_ir (.Fun p n rt fargs body) b = .ok s →
      ∃ t u, s = t ++ " const f_" ++ n ++ u) ∧
    (∀ (p : Bool) (n rt aname atype : String) (body : IRKind) (b : Bool)
        (s : String),
      gen_ir (.Fun p n rt [(aname, atype)] body) b = .ok s →
      ∃ t u, s = t ++ "v_" ++ aname ++ u) := by
  refine ⟨fun x b => rfl, ?_, ?_, ?_, ?_⟩
  · intro p n th v m b s h
    simp only [gen_ir] at h
    cases hv : gen_ir v false with
    | error e =>
      rw [hv] at h
      exact Except.noConfusion h
    | ok v' =>
      rw [hv] at h
      have h₂ : ((if p then "export" else "") ++ " " ++
          (if m then "let" else "const") ++ " v_" ++ n ++ ": " ++ th ++
          " = " ++ v' ++ semicolonStr b ++ "\n") = s := Except.ok.inj h
      refine ⟨(if p then "export" else "") ++ " " ++
        (if m then "let" else "const"),
        ": " ++ th ++ " = " ++ v' ++ semicolonStr b ++ "\n", ?_⟩
      rw [← h₂]
      simp [String.append_assoc]
  · intro n args b s h
    simp only [gen_ir] at h
    cases hargs : gen_irArgs args with
    | error e =>
      rw [hargs] at h
      exact Except.noConfusion h
    | ok rs =>
      rw [hargs] at h
      have h₂ : ("f_" ++ n ++ "(" ++
          rustTrimEndMatches ";\n" (String.intercalate ", " rs) ++ ")" ++
          semicolonStr b) = s := Except.ok.inj h
      refine ⟨"(" ++ rustTrimEndMatches ";\n" (String.intercalate ", " rs) ++
        ")" ++ semicolonStr b, ?_⟩
      rw [← h₂]
      simp [String.append_assoc]
  · intro p n rt fargs body b s h
    simp only [gen_ir] at h
    cases hb : gen_ir body false with
    | error e =>
      rw [hb] at h
      exact Except.noConfusion h
    | ok b' =>
      rw [hb] at h
      have h₂ : ((if p then "export" else "") ++ " const f_" ++ n ++
          " = (" ++ String.intercalate ", "
            (fargs.map (fun a => "v_" ++ a.1 ++ ": " ++ a.2)) ++ "): " ++
          rt ++ " => " ++ b' ++ ";\n") = s := Except.ok.inj h
      refine ⟨(if p then "export" else ""),
        " = (" ++ String.intercalate ", "
          (fargs.map (fun a => "v_" ++ a.1 ++ ": " ++ a.2)) ++ "): " ++
        rt ++ " => " ++ b' ++ ";\n", ?_⟩
      rw [← h₂]
      simp [String.append_assoc]
  · intro p n rt aname atype body b s h
    simp only [gen_ir] at h
    cases hb : gen_ir body false with
    | error e =>
      rw [hb] at h
      exact Except.noConfusion h
    | ok b' =>
      rw [hb] at h
      have h₂ : ((if p then "export" else "") ++ " const f_" ++ n ++
          " = (" ++ String.intercalate ", "
            ([(aname, atype)].map (fun a => "v_" ++ a.1 ++ ": " ++ a.2)) ++
          "): " ++ rt ++ " => " ++ b' ++ ";\n") = s := Except.ok.inj h
      refine ⟨(if p then "export" else "") ++ " const f_" ++ n ++ " = (",
        ": " ++ atype ++ "): " ++ rt ++ " => " ++ b' ++ ";\n", ?_⟩
      rw [← h₂]
      have h₃ : String.intercalate ", "
          ([(aname, atype)].map (fun a => "v_" ++ a.1 ++ ": " ++ a.2)) =
          "v_" ++ aname ++ ": " ++ atype := rfl
      rw [h₃]
      simp only [← String.append_assoc]

/-- Witness for C7: the hypothesis-bearing conjuncts applied at concrete
renderings. -/
theorem mangling_prefixes_witness :
    (∃ t u, (" const v_x: int = 1;\n" : String) = t ++ " v_" ++ "x" ++ u) ∧
    (∃ u, ("f_f(v_x)" : String) = "f_" ++ "f" ++ u) ∧
    (∃ t u, (" const f_g = (v_a: int): int => v_a;\n" : String) =
      t ++ " const f_" ++ "g" ++ u) ∧
    (∃ t u, (" const f_g = (v_a: int): int => v_a;\n" : String) =
      t ++ "v_" ++ "a" ++ u) :=
  ⟨mangling_prefixes.2.1 false "x" "int" (.Value (.Int 1)) false true
      " const v_x: int = 1;\n" rfl,
   mangling_prefixes.2.2.1 "f" [.Value (.Ident "x")] false "f_f(v_x)" rfl,
   mangling_prefixes.2.2.2.1 false "g" "int" [("a", "int")]
      (.Value (.Ident "a")) true " const f_g = (v_a: int): int => v_a;\n" rfl,
   mangling_prefixes.2.2.2.2 false "g" "int" "a" "int"
      (.Value (.Ident "a")) true " const f_g = (v_a: int): int => v_a;\n" rfl⟩

@[simp] theorem exceptBind_ok {ε α β : Type} (a : α) (f : α → Except ε β) :
    (Except.ok a >>= f) = f a := rfl

@[simp] theorem exceptBind_error {ε α β : Type} (e : ε)
    (f : α → Except ε β) : ((Except.error e : Except ε α) >>= f) = .error e :=
  rfl

@[simp] theorem exceptMap_ok {ε α β : Type} (f : α → β) (a : α) :
    (Except.ok a : Except ε α).map f = .ok (f a) := rfl

@[simp] theorem exceptMap_error {ε α β : Type} (f : α → β) (e : ε) :
    (Except.error e : Except ε α).map f = .error e := rfl

theorem strFoldlAppend (l : List String) :
    ∀ a : String, l.foldl (fun r s => r ++ s) a = a ++ String.join l := by
  induction l with
  | nil =>
    intro a
    simp [String.join, String.append_empty]
  | cons s rest ih =>
    intro a
    have hj : String.join (s :: rest) = s ++ String.join rest := by
      show List.foldl (fun r t => r ++ t) ("" ++ s) rest = _
      rw [ih ("" ++ s), String.empty_append]
    show List.foldl (fun r t => r ++ t) (a ++ s) rest = _
    rw [ih (a ++ s), hj, String.append_assoc]

theorem strJoin_cons (s : String) (parts : List String) :
    String.join (s :: parts) = s ++ String.join parts := by
  show List.foldl (fun r t => r ++ t) ("" ++ s) parts = _
  rw [strFoldlAppend parts ("" ++ s), String.empty_append]

theorem genLoop_eq (irs : List IR) :
    ∀ buf : String, genLoop irs buf =
      (genRenders irs).map (fun parts => buf ++ String.join parts) := by
  induction irs with
  | nil =>
    intro buf
    show Except.ok buf = .ok (buf ++ String.join [])
    rw [show String.join [] = "" from rfl, String.append_empty]
  | cons ir rest ih =>
    intro buf
    cases hg : gen_ir ir.kind true with
    | error e => simp [genLoop, genRenders, hg]
    | ok s =>
      cases hr : genRenders rest with
      | error e => simp [genLoop, genRenders, hg, hr, ih]
      | ok parts =>
        simp [genLoop, genRenders, hg, hr, ih, strJoin_cons,
          String.append_assoc]

/-- C8: `gen version irs` succeeds exactly when every item renders, and
its output buffer is, in this fixed order: the generated-file header
comment (tool name + version), the fixed import of the four runtime
primitives `read`/`write`/`readFile`/`writeFile` from the fixed runtime
module URL, the rendering of every IR node in input order, and — whatever
the program contains — the single trailing entry-point invocation
`f_main();`, which the buffer ends with. -/
theorem gen_output_shape :
    ∀ (version : String) (irs : List IR) (out : String),
      gen version irs = .ok out →
      ∃ parts, genRenders irs = .ok parts ∧
        out = headerLine version ++ importLine ++ String.join parts ++
          "f_main();" := by
  intro version irs out h
  unfold gen at h
  rw [genLoop_eq irs (headerLine version ++ importLine)] at h
  cases hr : genRenders irs with
  | error e =>
    rw [hr] at h
    exact Except.noConfusion h
  | ok parts =>
    rw [hr] at h
    refine ⟨parts, rfl, ?_⟩
    have h₂ : (headerLine version ++ importLine ++ String.join parts) ++
        "f_main();" = out := Except.ok.inj h
    rw [← h₂]

/-- Witness for C8: the shape theorem applied to the empty program. -/
theorem gen_output_shape_witness :
    ∃ parts, genRenders [] = .ok parts ∧
      (headerLine "0.1.0" ++ importLine ++ "f_main();" : String) =
        headerLine "0.1.0" ++ importLine ++ String.join parts ++
          "f_main();" :=
  gen_output_shape "0.1.0" []
    (headerLine "0.1.0" ++ importLine ++ "f_main();") (by
      show Except.ok ((headerLine "0.1.0" ++ importLine) ++ "f_main();") = _
      rw [String.append_assoc])

theorem noUnkE_ok {α : Type} (a : α) : NoUnkE (Except.ok a) :=
  fun _ h => Except.noConfusion h

theorem noUnkE_indexPanic : NoUnkE indexPanic := by
  intro n h
  rw [show indexPanic = Except.error Panic.indexOutOfBounds from rfl] at h
  exact Panic.noConfusion (Except.error.inj h)

theorem noUnkE_bind {α β : Type} {x : Except Panic α}
    {f : α → Except Panic β} (hx : NoUnkE x) (hf : ∀ a, NoUnkE (f a)) :
    NoUnkE (x >>= f) := by
  cases x with
  | error e =>
    intro n h
    have he : e = Panic.unknownIntrinsic n := Except.error.inj h
    exact hx n (by rw [he])
  | ok a =>
    intro n h
    rw [show ((Except.ok a : Except Panic α) >>= f) = f a from rfl] at h
    exact hf a n h

theorem intrinsicsKnownList_mem :
    ∀ {args : List IRKind}, intrinsicsKnownList args = true →
      ∀ a ∈ args, intrinsicsKnown a = true := by
  intro args
  induction args with
  | nil => intro _ a ha; cases ha
  | cons x xs ihx =>
    intro h a ha
    simp only [intrinsicsKnownList, Bool.and_eq_true] at h
    cases ha with
    | head => exact h.1
    | tail _ ht => exact ihx h.2 a ht

theorem known_noUnk_aux :
    ∀ k : Nat, ∀ ir : IRKind, sizeOf ir ≤ k → ∀ b : Bool,
      intrinsicsKnown ir = true → NoUnkE (gen_ir ir b) := by
  intro k
  induction k with
  | zero =>
    intro ir hsz
    exact absurd hsz (by cases ir <;> simp)
  | succ k ih =>
    have ihArgs : ∀ args : List IRKind, sizeOf args ≤ k + 1 →
        intrinsicsKnownList args = true → NoUnkE (gen_irArgs args) := by
      intro args
      induction args with
      | nil => intro _ _; exact noUnkE_ok []
      | cons a as ihas =>
        intro hsz hkn
        simp only [intrinsicsKnownList, Bool.and_eq_true] at hkn
        simp only [gen_irArgs]
        apply noUnkE_bind
        · exact ih a (by simp at hsz; omega) false hkn.1
        · intro s
          apply noUnkE_bind
          · exact ihas (by simp at hsz; omega) hkn.2
          · intro rs
            exact noUnkE_ok _
    have ihStmts : ∀ body : List IRKind, sizeOf body ≤ k + 1 →
        intrinsicsKnownList body = true → NoUnkE (gen_irStmts body) := by
      intro body
      induction body with
      | nil => intro _ _; exact noUnkE_ok []
      | cons a as ihas =>
        intro hsz hkn
        simp only [intrinsicsKnownList, Bool.and_eq_true] at hkn
        simp only [gen_irStmts]
        apply noUnkE_bind
        · exact ih a (by simp at hsz; omega) true hkn.1
        · intro s
          apply noUnkE_bind
          · exact ihas (by simp at hsz; omega) hkn.2
          · intro rs
            exact noUnkE_ok _
    have ihCases : ∀ cs : List (IRKind × IRKind), sizeOf cs ≤ k + 1 →
        intrinsicsKnownPairs cs = true → NoUnkE (gen_irCases cs) := by
      intro cs
      induction cs with
      | nil => intro _ _; exact noUnkE_ok []
      | cons pb rest ihr =>
        obtain ⟨pf, ps⟩ := pb
        intro hsz hkn
        simp only [intrinsicsKnownPairs, Bool.and_eq_true] at hkn
        simp only [gen_irCases]
        apply noUnkE_bind
        · exact ih pf (by simp at hsz; omega) true hkn.1.1
        · intro p
          apply noUnkE_bind
          · exact ih ps (by simp at hsz; omega) true hkn.1.2
          · intro bb
            apply noUnkE_bind
            · exact ihr (by simp at hsz; omega) hkn.2
            · intro rs
              exact noUnkE_ok _
    intro ir hsz b hkn
    cases ir with
    | Define p name th v m =>
      simp only [intrinsicsKnown] at hkn
      simp only [gen_ir]
      apply noUnkE_bind
      · exact ih v (by simp at hsz; omega) false hkn
      · intro v'
        exact noUnkE_ok _
    | Call name args =>
      simp only [intrinsicsKnown] at hkn
      simp only [gen_ir]
      apply noUnkE_bind
      · exact ihArgs args (by simp at hsz; omega) hkn
      · intro rs
        exact noUnkE_ok _
    | Intrinsic name args =>
      simp only [intrinsicsKnown, Bool.and_eq_true, Bool.or_eq_true,
        beq_iff_eq] at hkn
      obtain ⟨hmem, hargs⟩ := hkn
      have helts := intrinsicsKnownList_mem hargs
      have hsza : ∀ a ∈ args, sizeOf a ≤ k := by
        intro a ha
        have hlt := List.sizeOf_lt_of_mem ha
        simp at hsz
        omega
      rcases hmem with ((((h | h) | h) | h) | h) | h <;> subst h
      · -- write
        cases args with
        | nil => simp only [gen_ir]; exact noUnkE_indexPanic
        | cons a₀ rest =>
          simp only [gen_ir]
          apply noUnkE_bind
          · exact ih a₀ (hsza a₀ (List.mem_cons_self _ _)) false
              (helts a₀ (List.mem_cons_self _ _))
          · intro s₀
            exact noUnkE_ok _
      · -- write_file
        cases args with
        | nil => simp only [gen_ir]; exact noUnkE_indexPanic
        | cons a₀ rest =>
          simp only [gen_ir]
          apply noUnkE_bind
          · exact ih a₀ (hsza a₀ (List.mem_cons_self _ _)) false
              (helts a₀ (List.mem_cons_self _ _))
          · intro s₀
            cases rest with
            | nil => exact noUnkE_indexPanic
            | cons a₁ rest₂ =>
              apply noUnkE_bind
              · exact ih a₁ (hsza a₁ (List.mem_cons_of_mem _
                    (List.mem_cons_self _ _))) false
                  (helts a₁ (List.mem_cons_of_mem _ (List.mem_cons_self _ _)))
              · intro s₁
                exact noUnkE_ok _
      · -- read
        cases args with
        | nil => simp only [gen_ir]; exact noUnkE_indexPanic
        | cons a₀ rest =>
          simp only [gen_ir]
          apply noUnkE_bind
          · exact ih a₀ (hsza a₀ (List.mem_cons_self _ _)) false
              (helts a₀ (List.mem_cons_self _ _))
          · intro s₀
            exact noUnkE_ok _
      · -- read_file
        cases args with
        | nil => simp only [gen_ir]; exact noUnkE_indexPanic
        | cons a₀ rest =>
          simp only [gen_ir]
          apply noUnkE_bind
          · exact ih a₀ (hsza a₀ (List.mem_cons_self _ _)) false
              (helts a₀ (List.mem_cons_self _ _))
          · intro s₀
            exact noUnkE_ok _
      · -- emit
        cases args with
        | nil => simp only [gen_ir]; exact noUnkE_indexPanic
        | cons a₀ rest =>
          simp only [gen_ir]
          apply noUnkE_bind
          · exact ih a₀ (hsza a₀ (List.mem_cons_self _ _)) false
              (helts a₀ (List.mem_cons_self _ _))
          · intro s₀
            exact noUnkE_ok _
      · -- get
        cases args with
        | nil => simp only [gen_ir]; exact noUnkE_indexPanic
        | cons a₀ rest =>
          simp only [gen_ir]
          apply noUnkE_bind
          · exact ih a₀ (hsza a₀ (List.mem_cons_self _ _)) false
              (helts a₀ (List.mem_cons_self _ _))
          · intro s₀
            cases rest with
            | nil => exact noUnkE_indexPanic
            | cons a₁ rest₂ =>
              apply noUnkE_bind
              · exact ih a₁ (hsza a₁ (List.mem_cons_of_mem _
                    (List.mem_cons_self _ _))) false
                  (helts a₁ (List.mem_cons_of_mem _ (List.mem_cons_self _ _)))
              · intro s₁
                exact noUnkE_ok _
    | Fun p name rt fargs body =>
      simp only [intrinsicsKnown] at hkn
      simp only [gen_ir]
      apply noUnkE_bind
      · exact ih body (by simp at hsz; omega) false hkn
      · intro b'
        exact noUnkE_ok _
    | Return v =>
      simp only [intrinsicsKnown] at hkn
      simp only [gen_ir]
      apply noUnkE_bind
      · exact ih v (by simp at hsz; omega) false hkn
      · intro v'
        exact noUnkE_ok _
    | Do body =>
      simp only [intrinsicsKnown] at hkn
      simp only [gen_ir]
      apply noUnkE_bind
      · exact ihStmts body (by simp at hsz; omega) hkn
      · intro rs
        exact noUnkE_ok _
    | If c bd e =>
      simp only [intrinsicsKnown, Bool.and_eq_true] at hkn
      simp only [gen_ir]
      apply noUnkE_bind
      · exact ih c (by simp at hsz; omega) true hkn.1.1
      · intro c'
        apply noUnkE_bind
        · exact ih bd (by simp at hsz; omega) true hkn.1.2
        · intro b'
          apply noUnkE_bind
          · exact ih e (by simp at hsz; omega) true hkn.2
          · intro e'
            exact noUnkE_ok _
    | Case c cs d =>
      simp only [intrinsicsKnown, Bool.and_eq_true] at hkn
      simp only [gen_ir]
      apply noUnkE_bind
      · exact ih c (by simp at hsz; omega) true hkn.1.1
      · intro c'
        apply noUnkE_bind
        · exact ihCases cs (by simp at hsz; omega) hkn.1.2
        · intro cs'
          apply noUnkE_bind
          · exact ih d (by simp at hsz; omega) true hkn.2
          · intro d'
            exact noUnkE_ok _
    | Unary op r =>
      simp only [intrinsicsKnown] at hkn
      simp only [gen_ir]
      apply noUnkE_bind
      · exact ih r (by simp at hsz; omega) false hkn
      · intro r'
        exact noUnkE_ok _
    | Binary l op r =>
      simp only [intrinsicsKnown, Bool.and_eq_true] at hkn
      simp only [gen_ir]
      apply noUnkE_bind
      · exact ih l (by simp at hsz; omega) false hkn.1
      · intro l'
        apply noUnkE_bind
        · exact ih r (by simp at hsz; omega) false hkn.2
        · intro r'
          exact noUnkE_ok _
    | Value v =>
      cases v with
      | Int i => exact noUnkE_ok _
      | Boolean bb => exact noUnkE_ok _
      | String s => exact noUnkE_ok _
      | Ident s => exact noUnkE_ok _
    | Vector vals =>
      simp only [intrinsicsKnown] at hkn
      simp only [gen_ir]
      apply noUnkE_bind
      · exact ihArgs vals (by simp at hsz; omega) hkn
      · intro rs
        exact noUnkE_ok _

/-- C9: for every IR tree whose `Intrinsic` nodes all use one of the six
recognized names (`write`, `write_file`, `read`, `read_file`, `emit`,
`get`), code generation never produces the unknown-intrinsic fault — the
`unreachable!` branch is dead; and for an `Intrinsic` node with any
unrecognized name, `gen_ir` halts at once with that fatal, non-recoverable
internal fault (no output, no recoverable error value), whatever the
arguments. -/
theorem unknown_intrinsic_fatal :
    (∀ (ir : IRKind) (b : Bool), intrinsicsKnown ir = true →
      ∀ n : String, gen_ir ir b ≠ .error (.unknownIntrinsic n)) ∧
    (∀ (name : String) (args : List IRKind) (b : Bool),
      name ∉ recognizedIntrinsics →
      gen_ir (.Intrinsic name args) b = .error (.unknownIntrinsic name)) := by
  constructor
  · intro ir b hkn n
    exact known_noUnk_aux (sizeOf ir) ir (le_refl _) b hkn n
  · intro name args b hmem
    simp only [recognizedIntrinsics, List.mem_cons, List.not_mem_nil,
      or_false, not_or] at hmem
    obtain ⟨h₁, h₂, h₃, h₄, h₅, h₆⟩ := hmem
    simp [gen_ir, h₁, h₂, h₃, h₄, h₅, h₆]

/-- Witness for C9: both halves at concrete intrinsics. -/
theorem unknown_intrinsic_fatal_witness :
    (gen_ir (.Intrinsic "write" [.Value (.Int 1)]) true ≠
      .error (.unknownIntrinsic "nope")) ∧
    gen_ir (.Intrinsic "nope" []) true = .error (.unknownIntrinsic "nope") :=
  ⟨unknown_intrinsic_fatal.1 (.Intrinsic "write" [.Value (.Int 1)]) true
      rfl "nope",
   unknown_intrinsic_fatal.2 "nope" [] true (by decide)⟩
